import Mathlib

/-
  Verification of the open-list / fractal-diversification component.

  Shallow embedding of:
  - src/search/open_lists/open_list.h   (OpenList::insert, pop_bucket, QueueType)
  - src/search/open_lists/fractal_open_list.cc
      (FractalOpenList::random_index_with_size_diff,
       FractalOpenList::first_index_with_size_diff,
       FractalOpenList::remove_min)

  Machine integers: records are vector<uint>, dim is int but only ever
  incremented from 0, bucket_i is int with -1/0 sentinels.  All values stay
  far below 2^31 in the behaviors reasoned about, so Nat (with Int for the
  sentinel-carrying return values) is a faithful model.

  The global RNG g_rng(bound), which returns a value in [0, bound), is
  modelled as an explicit function argument rng : Nat -> Nat.
-/

namespace FD

/-- QueueType from open_list.h line 14. -/
inductive QueueType where
  | FIFO
  | LIFO
  | RANDOM
deriving DecidableEq

/-- Primary key: vector<int> ordered lexicographically. -/
abbrev Key := List Int

/--
pop_bucket from open_list.h lines 172-197, modelled value-faithfully.
A bucket is a deque; front of the Lean list = front of the deque.

C++ binds `Entry &result` to a slot BEFORE the container is mutated and
returns that reference; the caller copies from it after the mutation.
Hence the value actually delivered is:
- FIFO: the old front (pop_front does not overwrite the front slot's value
  before the copy in practice);
- LIFO: the old back;
- RANDOM: `Entry &result = *it; *it = bucket.back(); bucket.pop_back();`
  overwrites slot i with the back element before the caller copies, so the
  delivered value is the OLD BACK element, and the element originally at
  slot i is destroyed.  (For i < size-1 this is fully defined C++ behavior.)

Empty bucket: undefined in C++ (asserted against by the caller) -> none.
An out-of-range RNG draw cannot happen for g_rng -> modelled as none.
-/
def pop_bucket {E : Type} (qt : QueueType) (rng : Nat → Nat) :
    List E → Option (E × List E)
  | [] => none
  | x :: rest =>
    match qt with
    | QueueType.FIFO => some (x, rest)
    | QueueType.LIFO =>
        some ((x :: rest).getLast (List.cons_ne_nil x rest),
              (x :: rest).dropLast)
    | QueueType.RANDOM =>
        let b := x :: rest
        let i := rng b.length
        if i < b.length then
          let last := b.getLast (List.cons_ne_nil x rest)
          some (last, (b.set i last).dropLast)
        else none

/--
Candidate collection loop shared by both selectors
(fractal_open_list.cc lines 33-39 and 57-63): `depth` starts at 0 and is
incremented before the test, so position p (0-based) is tested with
rank p+1; a position is a candidate iff (p+1)*dim > records[p].
Returns the list of candidate RANKS (1-based), in ascending order.
-/
def candidate_ranks_go (dim : Nat) (depth : Nat) : List Nat → List Nat
  | [] => []
  | r :: rest =>
    if (depth + 1) * dim > r then
      (depth + 1) :: candidate_ranks_go dim (depth + 1) rest
    else
      candidate_ranks_go dim (depth + 1) rest

/-- All candidate ranks of a records array at a given dimension. -/
def candidate_ranks (records : List Nat) (dim : Nat) : List Nat :=
  candidate_ranks_go dim 0 records

/-- Loop of first_index_with_size_diff (fractal_open_list.cc lines 57-63):
returns the first candidate rank, or -1 when the list is exhausted. -/
def first_index_go (dim : Nat) (depth : Nat) : List Nat → Int
  | [] => -1
  | r :: rest =>
    if (depth + 1) * dim > r then
      ((depth : Int) + 1)
    else
      first_index_go dim (depth + 1) rest

/-- FractalOpenList::first_index_with_size_diff (fractal_open_list.cc
lines 54-65).  Returns the first candidate rank (1-based), 0 when records
is empty, -1 when records is non-empty but has no candidate. -/
def first_index_with_size_diff (records : List Nat) (dim : Nat) : Int :=
  if records.isEmpty then 0 else first_index_go dim 0 records

/-- FractalOpenList::random_index_with_size_diff (fractal_open_list.cc
lines 29-52).  Collects the candidate ranks into `indices`, then returns
0 when records is empty, -1 when there is no candidate, and otherwise
`g_rng(indices.size())` — note: the VALUE returned is a random number in
[0, indices.size()), NOT an element of `indices`. -/
def random_index_with_size_diff (records : List Nat) (dim : Nat)
    (rng : Nat → Nat) : Int :=
  let indices := candidate_ranks records dim
  if records.isEmpty then 0
  else if indices.isEmpty then -1
  else (rng indices.length : Int)

/-- The `this->stochastic ? random_... : first_...` dispatch of remove_min
(fractal_open_list.cc lines 87-90). -/
def select_index (stoch : Bool) (rng : Nat → Nat) (records : List Nat)
    (dim : Nat) : Int :=
  if stoch then random_index_with_size_diff records dim rng
  else first_index_with_size_diff records dim

/--
Fuel-bounded form of the `retry:` loop of remove_min (fractal_open_list.cc
lines 86-95): while the selector reports no candidate (return value -1,
which for non-empty records happens exactly when the candidate set is
empty), increment dim and retry.  Once dim exceeds records[0], rank 1 is a
candidate (1*dim > records[0]), so `records.headD 0 + 1 - dim` steps of
fuel always suffice; the lemmas below prove the result is exactly the
least dimension >= the start with a non-empty candidate set, i.e. the
fuel translation is exact.
-/
def widen_go (records : List Nat) : Nat → Nat → Nat
  | 0, dim => dim
  | fuel + 1, dim =>
    if candidate_ranks records dim = [] then widen_go records fuel (dim + 1)
    else dim

/-- Final dimension reached by the retry loop of remove_min, starting from
`dim`.  For empty records the selector returns 0 immediately and the loop
body never runs. -/
def widen_dim (records : List Nat) (dim : Nat) : Nat :=
  if records.isEmpty then dim
  else widen_go records (records.headD 0 + 1 - dim) dim

/-- Lazy creation of the expansion record
(fractal_open_list.cc lines 83-85): `if (records.empty())
records.resize(32);` — 32 zero-valued slots. -/
def effective_records (rec0 : List Nat) : List Nat :=
  if rec0.isEmpty then List.replicate 32 0 else rec0

/-- Doubling growth of the expansion record (fractal_open_list.cc lines
96-98): `if ((uint)(bucket_i) >= records.size())
records.resize(records.size()*2);`. -/
def grown_records (records : List Nat) (n : Nat) : List Nat :=
  if records.length ≤ n then records ++ List.replicate records.length 0
  else records

/--
State of a FractalOpenList (fields of TypedTiebreakingOpenList /
FractalOpenList):
- `buckets`: map<Key, vector<pair<int, Bucket>>>, modelled as an
  association list kept sorted by Key (std::map iteration order), each
  primary bucket holding its (type label, type bucket) pairs in first-seen
  order;
- `expansion_records`: map<Key, vector<uint>> as an association list
  (operator[] default = empty vector);
- `current_dimension`: map<Key, int> as an association list
  (operator[] default = 0).
-/
structure FractalState (E : Type) where
  buckets : List (Key × List (Nat × List E))
  expansion_records : List (Key × List Nat)
  current_dimension : List (Key × Nat)
deriving DecidableEq

/-- map lookup with default (std::map operator[] read side). -/
def lookupD {α : Type} : List (Key × α) → Key → α → α
  | [], _, d => d
  | (k, v) :: rest, key, d => if k = key then v else lookupD rest key d

/-- map write-back (the mutations performed through the references
`records` and `dim` in remove_min). -/
def updateMap {α : Type} : List (Key × α) → Key → α → List (Key × α)
  | [], key, v => [(key, v)]
  | (k, w) :: rest, key, v =>
    if k = key then (key, v) :: rest else (k, w) :: updateMap rest key v

/-- Configuration bits of the list that remove_min consults. -/
structure Config where
  stochastic : Bool
  queue_type : QueueType

/--
Core of FractalOpenList::remove_min (fractal_open_list.cc lines 67-112),
acting on the minimum-Key primary bucket: given its type-bucket sequence,
its expansion record and its dimension, produce the popped entry, the new
type-bucket sequence, and the updated record and dimension.
Returns none exactly where the C++ has an assertion failure or undefined
behavior: empty type-bucket sequence, selector < 0 after the loop
(provably unreachable), chosen position with no live type bucket
(`tbuckets.begin() + bucket_i` past the end), or empty selected queue.
-/
def remove_min_core {E : Type} (cfg : Config) (rng : Nat → Nat)
    (tbs : List (Nat × List E)) (rec0 : List Nat) (dim0 : Nat) :
    Option (E × List (Nat × List E) × List Nat × Nat) :=
  if tbs.isEmpty then none
  else
    let records1 := effective_records rec0
    let dim1 := widen_dim records1 dim0
    let bi := select_index cfg.stochastic rng records1 dim1
    if bi < 0 then none
    else
      let n := bi.toNat
      let records2 := grown_records records1 n
      let records3 := records2.set n (records2.getD n 0 + 1)
      if hn : n < tbs.length then
        match pop_bucket cfg.queue_type rng (tbs.get ⟨n, hn⟩).2 with
        | none => none
        | some (result, tb') =>
          let tbs' :=
            if tb'.isEmpty then tbs.eraseIdx n
            else tbs.set n ((tbs.get ⟨n, hn⟩).1, tb')
          some (result, tbs', records3, dim1)
      else none

/--
FractalOpenList::remove_min (fractal_open_list.cc lines 67-112).
Targets the first (minimum-Key) primary bucket, runs the core, erases the
primary bucket if it lost its last type bucket, and writes the updated
expansion record and dimension back into the per-Key maps (which are NOT
erased together with the bucket).  The returned Key component models the
write `*key = it->first` into the (empty) output key slot.
-/
def remove_min {E : Type} (cfg : Config) (rng : Nat → Nat)
    (st : FractalState E) : Option (Key × E × FractalState E) :=
  match st.buckets with
  | [] => none
  | (k, tbs) :: rest =>
    match remove_min_core cfg rng tbs (lookupD st.expansion_records k [])
        (lookupD st.current_dimension k 0) with
    | none => none
    | some (result, tbs', records', dim') =>
      some (k, result,
        ⟨(if tbs'.isEmpty then rest else (k, tbs') :: rest),
         updateMap st.expansion_records k records',
         updateMap st.current_dimension k dim'⟩)

/-- Number of entries in a type-bucket sequence. -/
def tbucketsSize {E : Type} (tbs : List (Nat × List E)) : Nat :=
  (tbs.map (fun p => p.2.length)).sum

/-- Total number of entries stored in the open list. -/
def totalCount {E : Type} (st : FractalState E) : Nat :=
  (st.buckets.map (fun b => tbucketsSize b.2)).sum

namespace OpenList

/-- OpenList::insert (open_list.h lines 156-163): skip when the list is
preferred-only and the context is not preferred, skip when the context is
a dead end, otherwise run do_insertion once.  The preferred flag and the
dead-end verdict are the two bits insert reads from the evaluation
context; do_insertion is the virtual hook. -/
def insert {S : Type} (only_preferred preferred dead : Bool)
    (do_ins : S → S) (s : S) : S :=
  if only_preferred && !preferred then s
  else if !dead then do_ins s else s

end OpenList

/-- Lexicographic strict order on Keys (vector<int> compared by
std::map's operator<). -/
def lexLt : List Int → List Int → Bool
  | [], [] => false
  | [], _ :: _ => true
  | _ :: _, [] => false
  | a :: as, b :: bs => if a < b then true else if b < a then false else lexLt as bs

/-- Modelled from the spec: the intra-primary-bucket part of
TypedTiebreakingOpenList::do_insertion (typed_tiebreaking_open_list.cc is
not under src/).  Spec 4.3 / 3: locate the type bucket with this label, or
append a fresh one at the end of the first-seen-order sequence; the entry
is pushed at the queue's insertion end (back), so the front of the queue
is the earliest-inserted entry. -/
def insert_tbucket {E : Type} (label : Nat) (e : E) :
    List (Nat × List E) → List (Nat × List E)
  | [] => [(label, [e])]
  | (l, q) :: rest =>
    if l = label then (l, q ++ [e]) :: rest
    else (l, q) :: insert_tbucket label e rest

/-- Modelled from the spec: the primary-bucket part of
TypedTiebreakingOpenList::do_insertion (typed_tiebreaking_open_list.cc is
not under src/).  Spec 4.3: locate or create the primary bucket for the
Key, keeping the buckets sorted by Key as std::map does. -/
def insert_bucket {E : Type} (key : Key) (label : Nat) (e : E) :
    List (Key × List (Nat × List E)) → List (Key × List (Nat × List E))
  | [] => [(key, [(label, [e])])]
  | (k, tb) :: rest =>
    if k = key then (k, insert_tbucket label e tb) :: rest
    else if lexLt key k then (key, [(label, [e])]) :: (k, tb) :: rest
    else (k, tb) :: insert_bucket key label e rest

/-- Modelled from the spec: TypedTiebreakingOpenList::do_insertion
(typed_tiebreaking_open_list.cc is not under src/), spec 4.3: files the
entry under (Key, type label).  It touches only `buckets`; the
expansion-record and dimension maps are left alone, so diversification
state is reused when a Key reappears. -/
def do_insertion {E : Type} (key : Key) (label : Nat) (e : E)
    (st : FractalState E) : FractalState E :=
  { st with buckets := insert_bucket key label e st.buckets }

/-- Repeatedly pop one bucket via pop_bucket, collecting the returned
entries (fuel-bounded). -/
def drainList {E : Type} (qt : QueueType) (rng : Nat → Nat) :
    Nat → List E → List E
  | 0, _ => []
  | fuel + 1, b =>
    match pop_bucket qt rng b with
    | none => []
    | some (e, b') => e :: drainList qt rng fuel b'

/-- Sequence of entries delivered by repeated remove_min calls
(fuel-bounded): the pop trace of a run. -/
def popTrace {E : Type} (cfg : Config) (rng : Nat → Nat) :
    Nat → FractalState E → List E
  | 0, _ => []
  | fuel + 1, st =>
    match remove_min cfg rng st with
    | none => []
    | some (_, e, st') => e :: popTrace cfg rng fuel st'

/-- Concrete state: one primary bucket (Key [0]) holding exactly one live
type bucket with one entry; diversification maps untouched. -/
def S1 : FractalState Nat := ⟨[([0], [(0, [7])])], [], []⟩

/-- Concrete state: one primary bucket (Key [0]) with two live type
buckets, one entry each; diversification maps untouched. -/
def S2 : FractalState Nat := ⟨[([0], [(0, [10]), (1, [20])])], [], []⟩

/-- The state remove_min (deterministic mode, FIFO) produces from S2:
position 1 is selected, its type bucket empties and is erased, slot 1 of
the fresh 32-slot record is incremented, and the dimension for Key [0] is
stored as 1. -/
def S2' : FractalState Nat :=
  ⟨[([0], [(0, [10])])],
   [([0], (List.replicate 32 0).set 1 1)],
   [([0], 1)]⟩

end FD

namespace FD

lemma candidate_ranks_cons_of_lt (r : Nat) (rs : List Nat) (dim : Nat)
    (h : r < dim) : candidate_ranks (r :: rs) dim ≠ [] := by
  simp [candidate_ranks, candidate_ranks_go, h]

lemma candidate_ranks_go_zero (depth : Nat) (records : List Nat) :
    candidate_ranks_go 0 depth records = [] := by
  induction records generalizing depth with
  | nil => rfl
  | cons r rs ih => simp [candidate_ranks_go, ih]

lemma candidate_ranks_zero (records : List Nat) : candidate_ranks records 0 = [] :=
  candidate_ranks_go_zero 0 records

lemma widen_go_ge (records : List Nat) (fuel : Nat) :
    ∀ dim, dim ≤ widen_go records fuel dim := by
  induction fuel with
  | zero => intro dim; simp [widen_go]
  | succ f ih =>
    intro dim
    simp only [widen_go]
    split
    · exact le_trans (by omega) (ih (dim + 1))
    · exact le_refl dim

lemma widen_go_le (records : List Nat) (fuel : Nat) :
    ∀ dim, widen_go records fuel dim ≤ dim + fuel := by
  induction fuel with
  | zero => intro dim; simp [widen_go]
  | succ f ih =>
    intro dim
    simp only [widen_go]
    split
    · have := ih (dim + 1); omega
    · omega

lemma widen_go_exit (r : Nat) (rs : List Nat) (fuel : Nat) :
    ∀ dim, r + 1 ≤ dim + fuel →
      candidate_ranks (r :: rs) (widen_go (r :: rs) fuel dim) ≠ [] := by
  induction fuel with
  | zero =>
    intro dim hle
    simp only [widen_go]
    exact candidate_ranks_cons_of_lt r rs dim (by omega)
  | succ f ih =>
    intro dim hle
    simp only [widen_go]
    split
    · exact ih (dim + 1) (by omega)
    · assumption

lemma widen_go_intermediate (records : List Nat) (fuel : Nat) :
    ∀ dim d, dim ≤ d → d < widen_go records fuel dim →
      candidate_ranks records d = [] := by
  induction fuel with
  | zero =>
    intro dim d h1 h2
    simp only [widen_go] at h2
    exact absurd h2 (by omega)
  | succ f ih =>
    intro dim d h1 h2
    simp only [widen_go] at h2
    split at h2
    · rename_i hc
      rcases Nat.eq_or_lt_of_le h1 with rfl | hlt
      · exact hc
      · exact ih (dim + 1) d (by omega) h2
    · exact absurd h2 (by omega)

lemma widen_dim_ge (records : List Nat) (dim : Nat) : dim ≤ widen_dim records dim := by
  unfold widen_dim
  split
  · exact le_refl dim
  · exact widen_go_ge records _ dim

lemma widen_dim_exit (records : List Nat) (dim : Nat) (h : records ≠ []) :
    candidate_ranks records (widen_dim records dim) ≠ [] := by
  rcases records with _ | ⟨r, rs⟩
  · exact absurd rfl h
  · show candidate_ranks (r :: rs) (widen_dim (r :: rs) dim) ≠ []
    unfold widen_dim
    simp only [List.isEmpty_cons, List.headD_cons]
    exact widen_go_exit r rs _ dim (by omega)

lemma widen_dim_intermediate (records : List Nat) (dim d : Nat)
    (h1 : dim ≤ d) (h2 : d < widen_dim records dim) :
    candidate_ranks records d = [] := by
  unfold widen_dim at h2
  split at h2
  · exact absurd h2 (by omega)
  · exact widen_go_intermediate records _ dim d h1 h2

lemma widen_dim_le (records : List Nat) (dim : Nat) :
    widen_dim records dim ≤ max dim (records.headD 0 + 1) := by
  unfold widen_dim
  split
  · exact le_max_left _ _
  · have := widen_go_le records (records.headD 0 + 1 - dim) dim
    omega

lemma widen_dim_zero_pos (records : List Nat) (h : records ≠ []) :
    1 ≤ widen_dim records 0 := by
  by_contra hc
  push_neg at hc
  have h0 : widen_dim records 0 = 0 := by omega
  have hx := widen_dim_exit records 0 h
  rw [h0] at hx
  exact hx (candidate_ranks_zero records)

lemma lookupD_updateMap_self {α : Type} (m : List (Key × α)) (k : Key) (v d : α) :
    lookupD (updateMap m k v) k d = v := by
  induction m with
  | nil => simp [updateMap, lookupD]
  | cons p rest ih =>
    obtain ⟨k1, w⟩ := p
    by_cases hk : k1 = k
    · subst hk; simp [updateMap, lookupD]
    · simp [updateMap, lookupD, hk, ih]

lemma lookupD_updateMap_other {α : Type} (m : List (Key × α)) (k q : Key) (v d : α)
    (h : q ≠ k) : lookupD (updateMap m k v) q d = lookupD m q d := by
  have hkq : k ≠ q := fun e => h e.symm
  induction m with
  | nil =>
    simp only [updateMap, lookupD]
    rw [if_neg hkq]
  | cons p rest ih =>
    obtain ⟨k1, w⟩ := p
    by_cases hk : k1 = k
    · have hk1q : k1 ≠ q := by rw [hk]; exact hkq
      simp only [updateMap, if_pos hk, lookupD]
      rw [if_neg hkq, if_neg hk1q]
    · simp only [updateMap, if_neg hk, lookupD]
      by_cases hq : k1 = q
      · rw [if_pos hq, if_pos hq]
      · rw [if_neg hq, if_neg hq, ih]

end FD

namespace FD

lemma mem_candidate_ranks_go (dim : Nat) (records : List Nat) :
    ∀ depth k, k ∈ candidate_ranks_go dim depth records ↔
      ∃ p, p < records.length ∧ k = depth + p + 1 ∧
        (depth + p + 1) * dim > records.getD p 0 := by
  induction records with
  | nil => intro depth k; simp [candidate_ranks_go]
  | cons r rs ih =>
    intro depth k
    simp only [candidate_ranks_go]
    split
    · rename_i hc
      rw [List.mem_cons, ih (depth + 1) k]
      constructor
      · rintro (rfl | ⟨p, hp, rfl, hgt⟩)
        · exact ⟨0, by simp, by omega, by simpa using hc⟩
        · refine ⟨p + 1, by simp [hp], by omega, ?_⟩
          have e1 : depth + (p + 1) + 1 = depth + 1 + p + 1 := by omega
          rw [e1]
          simpa using hgt
      · rintro ⟨p, hp, hk, hgt⟩
        cases p with
        | zero => left; omega
        | succ q =>
          right
          refine ⟨q, by simpa using hp, by omega, ?_⟩
          have e1 : depth + 1 + q + 1 = depth + (q + 1) + 1 := by omega
          rw [e1]
          simpa using hgt
    · rename_i hc
      rw [ih (depth + 1) k]
      constructor
      · rintro ⟨p, hp, rfl, hgt⟩
        refine ⟨p + 1, by simp [hp], by omega, ?_⟩
        have e1 : depth + (p + 1) + 1 = depth + 1 + p + 1 := by omega
        rw [e1]
        simpa using hgt
      · rintro ⟨p, hp, hk, hgt⟩
        cases p with
        | zero => exact absurd (by simpa using hgt) hc
        | succ q =>
          refine ⟨q, by simpa using hp, by omega, ?_⟩
          have e1 : depth + 1 + q + 1 = depth + (q + 1) + 1 := by omega
          rw [e1]
          simpa using hgt

lemma mem_candidate_ranks (records : List Nat) (dim p : Nat) :
    (p + 1) ∈ candidate_ranks records dim ↔
      (p < records.length ∧ (p + 1) * dim > records.getD p 0) := by
  rw [candidate_ranks, mem_candidate_ranks_go]
  constructor
  · rintro ⟨q, hq, he, hgt⟩
    have hqp : q = p := by omega
    subst hqp
    exact ⟨hq, by simpa using hgt⟩
  · rintro ⟨hp, hgt⟩
    exact ⟨p, hp, by omega, by simpa using hgt⟩

lemma pop_bucket_mem_length {E : Type} (qt : QueueType) (rng : Nat → Nat)
    (b b' : List E) (e : E) (h : pop_bucket qt rng b = some (e, b')) :
    e ∈ b ∧ b'.length + 1 = b.length := by
  match b with
  | [] => simp [pop_bucket] at h
  | x :: rest =>
    cases qt with
    | FIFO =>
      simp only [pop_bucket, Option.some.injEq, Prod.mk.injEq] at h
      obtain ⟨rfl, rfl⟩ := h
      exact ⟨List.mem_cons_self x rest, by simp⟩
    | LIFO =>
      simp only [pop_bucket, Option.some.injEq, Prod.mk.injEq] at h
      obtain ⟨rfl, rfl⟩ := h
      refine ⟨List.getLast_mem _, ?_⟩
      simp [List.length_dropLast]
    | RANDOM =>
      simp only [pop_bucket] at h
      split at h
      · simp only [Option.some.injEq, Prod.mk.injEq] at h
        obtain ⟨rfl, rfl⟩ := h
        refine ⟨List.getLast_mem _, ?_⟩
        simp [List.length_dropLast, List.length_set]
      · simp at h

lemma pop_bucket_rng_indep {E : Type} (qt : QueueType)
    (hq : qt ≠ QueueType.RANDOM) (rng₁ rng₂ : Nat → Nat) (b : List E) :
    pop_bucket qt rng₁ b = pop_bucket qt rng₂ b := by
  cases qt with
  | FIFO => cases b <;> rfl
  | LIFO => cases b <;> rfl
  | RANDOM => exact absurd rfl hq

lemma tbucketsSize_cons {E : Type} (a : Nat × List E) (l : List (Nat × List E)) :
    tbucketsSize (a :: l) = a.2.length + tbucketsSize l := by
  simp [tbucketsSize]

lemma tbucketsSize_set {E : Type} :
    ∀ (l : List (Nat × List E)) (n : Nat) (x : Nat × List E) (h : n < l.length),
      tbucketsSize (l.set n x) + (l.get ⟨n, h⟩).2.length =
        tbucketsSize l + x.2.length := by
  intro l
  induction l with
  | nil => intro n x h; simp at h
  | cons a as ih =>
    intro n x h
    cases n with
    | zero =>
      simp only [List.set, List.get, tbucketsSize_cons]
      omega
    | succ m =>
      have hm : m < as.length := by simpa using h
      simp only [List.set, List.get, tbucketsSize_cons]
      have := ih m x hm
      omega

lemma tbucketsSize_eraseIdx {E : Type} :
    ∀ (l : List (Nat × List E)) (n : Nat) (h : n < l.length),
      tbucketsSize (l.eraseIdx n) + (l.get ⟨n, h⟩).2.length = tbucketsSize l := by
  intro l
  induction l with
  | nil => intro n h; simp at h
  | cons a as ih =>
    intro n h
    cases n with
    | zero =>
      simp only [List.eraseIdx, List.get, tbucketsSize_cons]
      omega
    | succ m =>
      have hm : m < as.length := by simpa using h
      simp only [List.eraseIdx, List.get, tbucketsSize_cons]
      have := ih m hm
      omega

lemma tbucketsSize_of_isEmpty {E : Type} (l : List (Nat × List E))
    (h : l.isEmpty) : tbucketsSize l = 0 := by
  cases l with
  | nil => rfl
  | cons a as => simp at h

lemma effective_records_ne_nil (rec0 : List Nat) : effective_records rec0 ≠ [] := by
  unfold effective_records
  split
  · simp
  · rename_i h
    simp only [List.isEmpty_eq_true] at h
    exact h

lemma grown_records_ne_nil (records : List Nat) (n : Nat) (h : records ≠ []) :
    grown_records records n ≠ [] := by
  unfold grown_records
  split
  · simp [h]
  · exact h

lemma set_ne_nil {α : Type} (l : List α) (n : Nat) (a : α) (h : l ≠ []) :
    l.set n a ≠ [] := by
  cases l with
  | nil => exact absurd rfl h
  | cons x xs => cases n <;> simp [List.set]

end FD

namespace FD

lemma remove_min_core_spec {E : Type} (cfg : Config) (rng : Nat → Nat)
    (tbs : List (Nat × List E)) (rec0 : List Nat) (dim0 : Nat)
    (e : E) (tbs' : List (Nat × List E)) (rec' : List Nat) (d' : Nat)
    (h : remove_min_core cfg rng tbs rec0 dim0 = some (e, tbs', rec', d')) :
    d' = widen_dim (effective_records rec0) dim0 ∧
    rec' ≠ [] ∧
    (∃ t ∈ tbs, e ∈ t.2) ∧
    tbucketsSize tbs' + 1 = tbucketsSize tbs := by
  simp only [remove_min_core] at h
  split at h
  · exact absurd h (by simp)
  · split at h
    · exact absurd h (by simp)
    · generalize hbi : (select_index cfg.stochastic rng (effective_records rec0)
        (widen_dim (effective_records rec0) dim0)).toNat = n at h
      split at h
      · rename_i hn
        split at h
        · exact absurd h (by simp)
        · rename_i result tb' hpop
          simp only [Option.some.injEq, Prod.mk.injEq] at h
          obtain ⟨he, htb, hrec, hd⟩ := h
          subst he htb hrec hd
          obtain ⟨hmem, hlen⟩ := pop_bucket_mem_length _ _ _ _ _ hpop
          have hlen' : tb'.length + 1 = (tbs.get ⟨n, hn⟩).2.length := hlen
          refine ⟨rfl, ?_, ⟨tbs.get ⟨n, hn⟩, List.get_mem tbs n hn, hmem⟩, ?_⟩
          · exact set_ne_nil _ _ _
              (grown_records_ne_nil _ _ (effective_records_ne_nil rec0))
          · split
            · rename_i htbe
              have htb0 : tb' = [] := by
                cases tb' with
                | nil => rfl
                | cons a as => simp at htbe
              subst htb0
              have h2 := tbucketsSize_eraseIdx tbs n hn
              simp only [List.length_nil] at hlen'
              omega
            · have hset : tbucketsSize (tbs.set n ((tbs.get ⟨n, hn⟩).1, tb')) +
                  (tbs.get ⟨n, hn⟩).2.length = tbucketsSize tbs + tb'.length :=
                tbucketsSize_set tbs n _ hn
              show tbucketsSize (tbs.set n ((tbs.get ⟨n, hn⟩).1, tb')) + 1 =
                tbucketsSize tbs
              omega
      · exact absurd h (by simp)

end FD

namespace FD

lemma remove_min_spec {E : Type} (cfg : Config) (rng : Nat → Nat)
    (st st' : FractalState E) (k : Key) (e : E)
    (h : remove_min cfg rng st = some (k, e, st')) :
    ∃ tbs rest rec',
      st.buckets = (k, tbs) :: rest ∧
      (∃ t ∈ tbs, e ∈ t.2) ∧
      totalCount st' + 1 = totalCount st ∧
      rec' ≠ [] ∧
      st'.expansion_records = updateMap st.expansion_records k rec' ∧
      st'.current_dimension = updateMap st.current_dimension k
        (widen_dim (effective_records (lookupD st.expansion_records k []))
          (lookupD st.current_dimension k 0)) := by
  unfold remove_min at h
  split at h
  · exact absurd h (by simp)
  · rename_i k0 tbs rest hb
    split at h
    · exact absurd h (by simp)
    · rename_i result tbs2 rec2 d2 hcore
      simp only [Option.some.injEq, Prod.mk.injEq] at h
      obtain ⟨hk, he, hst⟩ := h
      subst hk he hst
      obtain ⟨hd, hrec, hmem, hsz⟩ :=
        remove_min_core_spec _ _ _ _ _ _ _ _ _ hcore
      subst hd
      refine ⟨tbs, rest, rec2, hb, hmem, ?_, hrec, rfl, rfl⟩
      simp only [totalCount, hb, List.map_cons, List.sum_cons]
      split
      · rename_i h2e
        have : tbucketsSize tbs2 = 0 := tbucketsSize_of_isEmpty tbs2 h2e
        omega
      · simp only [List.map_cons, List.sum_cons]
        omega

end FD

namespace FD

lemma first_index_go_nonneg (dim : Nat) (records : List Nat) :
    ∀ depth, candidate_ranks_go dim depth records ≠ [] →
      0 ≤ first_index_go dim depth records := by
  induction records with
  | nil => intro depth hc; exact absurd rfl hc
  | cons r rs ih =>
    intro depth hc
    simp only [first_index_go, candidate_ranks_go] at *
    split
    · omega
    · rename_i hgt
      refine ih (depth + 1) ?_
      simpa [hgt] using hc

lemma select_index_nonneg (stoch : Bool) (rng : Nat → Nat)
    (records : List Nat) (dim : Nat) (h : candidate_ranks records dim ≠ []) :
    0 ≤ select_index stoch rng records dim := by
  have hrne : records ≠ [] := by
    intro hr
    subst hr
    exact h rfl
  have hre : records.isEmpty = false := by
    cases records with
    | nil => exact absurd rfl hrne
    | cons a as => rfl
  have hie : (candidate_ranks records dim).isEmpty = false := by
    cases hc : candidate_ranks records dim with
    | nil => exact absurd hc h
    | cons a as => rfl
  cases stoch with
  | true =>
    show 0 ≤ random_index_with_size_diff records dim rng
    unfold random_index_with_size_diff
    simp only [hre, hie, Bool.false_eq_true, if_false]
    exact Int.natCast_nonneg _
  | false =>
    show 0 ≤ first_index_with_size_diff records dim
    unfold first_index_with_size_diff
    simp only [hre, Bool.false_eq_true, if_false]
    exact first_index_go_nonneg dim records 0 h

lemma remove_min_core_rng_indep {E : Type} (qt : QueueType)
    (hq : qt ≠ QueueType.RANDOM) (rng₁ rng₂ : Nat → Nat)
    (tbs : List (Nat × List E)) (rec0 : List Nat) (dim0 : Nat) :
    remove_min_core ⟨false, qt⟩ rng₁ tbs rec0 dim0 =
      remove_min_core ⟨false, qt⟩ rng₂ tbs rec0 dim0 := by
  unfold remove_min_core
  simp only [select_index, Bool.false_eq_true, if_false,
    pop_bucket_rng_indep qt hq rng₁ rng₂]

lemma remove_min_rng_indep {E : Type} (qt : QueueType)
    (hq : qt ≠ QueueType.RANDOM) (rng₁ rng₂ : Nat → Nat)
    (st : FractalState E) :
    remove_min ⟨false, qt⟩ rng₁ st = remove_min ⟨false, qt⟩ rng₂ st := by
  obtain ⟨b, er, cd⟩ := st
  cases b with
  | nil => rfl
  | cons hd tl =>
    obtain ⟨k, tbs⟩ := hd
    simp only [remove_min]
    rw [remove_min_core_rng_indep qt hq rng₁ rng₂]

lemma popTrace_rng_indep {E : Type} (qt : QueueType)
    (hq : qt ≠ QueueType.RANDOM) (rng₁ rng₂ : Nat → Nat) :
    ∀ (fuel : Nat) (st : FractalState E),
      popTrace ⟨false, qt⟩ rng₁ fuel st = popTrace ⟨false, qt⟩ rng₂ fuel st := by
  intro fuel
  induction fuel with
  | zero => intro st; rfl
  | succ f ih =>
    intro st
    simp only [popTrace]
    rw [remove_min_rng_indep qt hq rng₁ rng₂]
    cases hm : remove_min ⟨false, qt⟩ rng₂ st with
    | none => rfl
    | some x =>
      obtain ⟨k, e, st2⟩ := x
      simp only
      rw [ih st2]

end FD

namespace FD

/-- C1: the claim says the type-bucket position chosen by the
diversification step of remove_min is always in [0, n) for a primary
bucket with n live type buckets.  The code violates this: on a fresh Key
whose primary bucket holds a single type bucket (state S1, n = 1), the
deterministic selector returns rank 1 after widening the dimension to 1,
and remove_min uses that value directly as the type-bucket index, i.e. it
addresses position 1, which has no live type bucket (modelled as none =
past-the-end iterator access).  A stochastic run with g_rng(32) drawing 5
addresses position 5 the same way. -/
theorem C1_selection_addresses_dead_position :
    S1.buckets.map (fun b => b.2.length) = [1] ∧
    select_index false (fun _ => 0)
      (effective_records (lookupD S1.expansion_records [0] []))
      (widen_dim (effective_records (lookupD S1.expansion_records [0] []))
        (lookupD S1.current_dimension [0] 0)) = 1 ∧
    remove_min ⟨false, QueueType.FIFO⟩ (fun _ => 0) S1 = none ∧
    select_index true (fun _ => 5)
      (effective_records (lookupD S1.expansion_records [0] []))
      (widen_dim (effective_records (lookupD S1.expansion_records [0] []))
        (lookupD S1.current_dimension [0] 0)) = 5 ∧
    remove_min ⟨true, QueueType.FIFO⟩ (fun _ => 5) S1 = none := by
  refine ⟨by decide, by decide, by decide, by decide, by decide⟩

/-- C2: a position p is a candidate exactly when (p+1)*dimension >
records[p] (first conjunct, proved in general), but the stochastic
selector does NOT return one of the candidate ranks: for records = [5, 0]
and dimension 1 the only candidate rank is 2, yet
random_index_with_size_diff returns g_rng(1) = 0 (0 is the only value
g_rng can produce for bound 1), and 0 is not a candidate rank. -/
theorem C2_stochastic_selector_divergence :
    (∀ (records : List Nat) (dim p : Nat),
      (p + 1) ∈ candidate_ranks records dim ↔
        (p < records.length ∧ (p + 1) * dim > records.getD p 0)) ∧
    candidate_ranks [5, 0] 1 = [2] ∧
    random_index_with_size_diff [5, 0] 1 (fun _ => 0) = 0 ∧
    (random_index_with_size_diff [5, 0] 1 (fun _ => 0)).toNat ∉
      candidate_ranks [5, 0] 1 :=
  ⟨mem_candidate_ranks, by decide, by decide, by decide⟩

/-- C3: the claim says a RANDOM-discipline pop removes a uniformly random
surviving entry and draining returns exactly the inserted multiset.  The
code violates this: `Entry &result = *it; *it = bucket.back();` aliases
the result slot, so for bucket [0, 1, 2] and RNG draw 0 the pop returns
entry 2 (the back) and leaves [2, 1] — entry 0 is destroyed without ever
being returned and entry 2 is duplicated, so the returned entry plus the
survivors no longer form the inserted multiset. -/
theorem C3_random_pop_not_multiset_preserving :
    pop_bucket QueueType.RANDOM (fun _ => 0) [0, 1, 2] = some (2, [2, 1]) ∧
    ((2 : Nat) ::ₘ ([2, 1] : Multiset Nat)) ≠ ([0, 1, 2] : Multiset Nat) ∧
    (0 : Nat) ∉ ((2 : Nat) ::ₘ ([2, 1] : Multiset Nat)) := by
  refine ⟨by rfl, by decide, by decide⟩

/-- C4 counterexample: the claim as stated ("remove_min on a non-empty
list removes and returns exactly one entry ...") is false: S1 is
non-empty (it stores one entry) yet remove_min pops nothing — the
diversification step addresses position 1 of a 1-element type-bucket
sequence, which in C++ is a past-the-end dereference, not the removal of
an entry. -/
theorem C4_remove_min_can_fail_on_nonempty :
    S1.buckets ≠ [] ∧ totalCount S1 = 1 ∧
    remove_min ⟨false, QueueType.FIFO⟩ (fun _ => 0) S1 = none := by
  refine ⟨by decide, by decide, by decide⟩

/-- C4 (amended): whenever remove_min does pop an entry (the chosen
position is within the live type-bucket range), it removes exactly one
entry, drawn from the primary bucket whose Key is minimal in the
lexicographic bucket order, and the output key slot receives that
bucket's Key. -/
theorem C4_remove_min_amended {E : Type} (cfg : Config) (rng : Nat → Nat)
    (st st' : FractalState E) (k : Key) (e : E)
    (hsort : st.buckets.Pairwise (fun a b => lexLt a.1 b.1 = true))
    (h : remove_min cfg rng st = some (k, e, st')) :
    (∀ p ∈ st.buckets, p.1 = k ∨ lexLt k p.1 = true) ∧
    (∃ tb ∈ st.buckets, tb.1 = k ∧ ∃ t ∈ tb.2, e ∈ t.2) ∧
    totalCount st' + 1 = totalCount st := by
  obtain ⟨tbs, rest, rec', hb, hmem, hsz, hrne, her, hcd⟩ :=
    remove_min_spec cfg rng st st' k e h
  refine ⟨?_, ⟨(k, tbs), ?_, rfl, hmem⟩, hsz⟩
  · intro p hp
    rw [hb] at hp hsort
    rcases List.mem_cons.mp hp with hpe | hp2
    · exact Or.inl (by rw [hpe])
    · exact Or.inr ((List.pairwise_cons.mp hsort).1 p hp2)
  · rw [hb]
    exact List.mem_cons_self _ _

/-- C4 witness: the amended theorem applied to the concrete state S2, on
which remove_min succeeds (two live type buckets, position 1 selected). -/
theorem C4_witness :
    (∀ p ∈ S2.buckets, p.1 = [0] ∨ lexLt [0] p.1 = true) ∧
    (∃ tb ∈ S2.buckets, tb.1 = [0] ∧ ∃ t ∈ tb.2, 20 ∈ t.2) ∧
    totalCount S2' + 1 = totalCount S2 :=
  C4_remove_min_amended ⟨false, QueueType.FIFO⟩ (fun _ => 0) S2 S2' [0] 20
    (by simp [S2]) (by decide)

/-- C5: across any successful remove_min the stored dimension of every
Key never decreases; the expansion record written back for the popped
Key is non-empty (retained even when the primary bucket was just
deleted, since remove_min never erases the per-Key maps); and insertion
never touches the expansion-record or dimension maps, so the prior
diversification state is reused when a Key reappears. -/
theorem C5_dimension_persistence {E : Type} (cfg : Config) (rng : Nat → Nat)
    (st st' : FractalState E) (k : Key) (e : E)
    (h : remove_min cfg rng st = some (k, e, st')) :
    (∀ q : Key,
      lookupD st.current_dimension q 0 ≤ lookupD st'.current_dimension q 0) ∧
    lookupD st'.expansion_records k [] ≠ [] ∧
    (∀ (key : Key) (label : Nat) (x : E) (s : FractalState E),
      (do_insertion key label x s).expansion_records = s.expansion_records ∧
      (do_insertion key label x s).current_dimension = s.current_dimension) := by
  obtain ⟨tbs, rest, rec', hb, hmem, hsz, hrne, her, hcd⟩ :=
    remove_min_spec cfg rng st st' k e h
  refine ⟨?_, ?_, fun key label x s => ⟨rfl, rfl⟩⟩
  · intro q
    rw [hcd]
    by_cases hq : q = k
    · subst hq
      rw [lookupD_updateMap_self]
      exact widen_dim_ge _ _
    · rw [lookupD_updateMap_other _ _ _ _ _ hq]
  · rw [her, lookupD_updateMap_self]
    exact hrne

/-- C5 witness: the persistence theorem applied to the concrete pop on
S2, which yields S2'. -/
theorem C5_witness :
    (∀ q : Key,
      lookupD S2.current_dimension q 0 ≤ lookupD S2'.current_dimension q 0) ∧
    lookupD S2'.expansion_records [0] [] ≠ [] ∧
    (∀ (key : Key) (label : Nat) (x : Nat) (s : FractalState Nat),
      (do_insertion key label x s).expansion_records = s.expansion_records ∧
      (do_insertion key label x s).current_dimension = s.current_dimension) :=
  C5_dimension_persistence ⟨false, QueueType.FIFO⟩ (fun _ => 0) S2 S2' [0] 20
    (by decide)

/-- C6: the dimension-widening retry loop of remove_min terminates for
every finite usage-count array: the final dimension is at least the
starting one, has a non-empty candidate set (so both selectors return a
non-negative position and the loop exits), every dimension passed
through on the way had no candidate, and the result is bounded by
records[0] + 1 because rank 1 becomes a candidate as soon as
1 * dimension exceeds the fixed records[0]. -/
theorem C6_widening_terminates (records : List Nat) (dim : Nat)
    (h : records ≠ []) :
    dim ≤ widen_dim records dim ∧
    candidate_ranks records (widen_dim records dim) ≠ [] ∧
    (∀ d, dim ≤ d → d < widen_dim records dim →
      candidate_ranks records d = []) ∧
    widen_dim records dim ≤ max dim (records.headD 0 + 1) ∧
    (∀ (stoch : Bool) (rng : Nat → Nat),
      0 ≤ select_index stoch rng records (widen_dim records dim)) :=
  ⟨widen_dim_ge records dim, widen_dim_exit records dim h,
   fun d h1 h2 => widen_dim_intermediate records dim d h1 h2,
   widen_dim_le records dim,
   fun stoch rng =>
     select_index_nonneg stoch rng records _ (widen_dim_exit records dim h)⟩

/-- C6 witness: the termination theorem applied to the one-slot record
[0] and starting dimension 0 (the loop widens to dimension 1). -/
theorem C6_witness :
    (0 : Nat) ≤ widen_dim [0] 0 ∧
    candidate_ranks [0] (widen_dim [0] 0) ≠ [] ∧
    (∀ d, (0 : Nat) ≤ d → d < widen_dim [0] 0 →
      candidate_ranks [0] d = []) ∧
    widen_dim [0] 0 ≤ max 0 (([0] : List Nat).headD 0 + 1) ∧
    (∀ (stoch : Bool) (rng : Nat → Nat),
      0 ≤ select_index stoch rng [0] (widen_dim [0] 0)) :=
  C6_widening_terminates [0] 0 (by decide)

/-- C7: OpenList::insert is a no-op exactly when the list is
preferred-only and the entry is not preferred, or when the context
reports a dead end; otherwise it runs the concrete insertion hook
exactly once. -/
theorem C7_insert_filtering {S : Type} (only_preferred preferred dead : Bool)
    (do_ins : S → S) (s : S) :
    OpenList.insert only_preferred preferred dead do_ins s =
      if (only_preferred && !preferred) || dead then s else do_ins s := by
  cases only_preferred <;> cases preferred <;> cases dead <;> rfl

/-- C8: under the FIFO discipline, entries A, B, C inserted in that order
into the same type bucket occupy the queue front-to-back in insertion
order, and repeated pops deliver them in order A, B, C (the earliest
surviving entry each time). -/
theorem C8_fifo_order {E : Type} (A B C : E) (rng : Nat → Nat) :
    insert_tbucket 0 C (insert_tbucket 0 B (insert_tbucket 0 A [])) =
      [(0, [A, B, C])] ∧
    drainList QueueType.FIFO rng 3 [A, B, C] = [A, B, C] :=
  ⟨rfl, rfl⟩

/-- C9: with stochastic = false the type-bucket selection never consults
the pseudo-random source (the selector's value is independent of the RNG
function), and for a non-RANDOM queue discipline the whole pop sequence
from any state is identical for any two RNG sources, so two runs over the
same insertion sequence produce identical pop sequences. -/
theorem C9_deterministic_reproducibility (qt : QueueType)
    (hq : qt ≠ QueueType.RANDOM) (rng₁ rng₂ : Nat → Nat) :
    (∀ (records : List Nat) (dim : Nat),
      select_index false rng₁ records dim = select_index false rng₂ records dim) ∧
    (∀ (st : FractalState Nat) (fuel : Nat),
      popTrace ⟨false, qt⟩ rng₁ fuel st = popTrace ⟨false, qt⟩ rng₂ fuel st) :=
  ⟨fun _ _ => rfl,
   fun st fuel => popTrace_rng_indep qt hq rng₁ rng₂ fuel st⟩

/-- C9 witness: the reproducibility theorem applied to the FIFO
discipline and two different RNG functions. -/
theorem C9_witness :
    (∀ (records : List Nat) (dim : Nat),
      select_index false (fun _ => 0) records dim =
        select_index false (fun n => n) records dim) ∧
    (∀ (st : FractalState Nat) (fuel : Nat),
      popTrace ⟨false, QueueType.FIFO⟩ (fun _ => 0) fuel st =
        popTrace ⟨false, QueueType.FIFO⟩ (fun n => n) fuel st) :=
  C9_deterministic_reproducibility QueueType.FIFO (by decide)
    (fun _ => 0) (fun n => n)

/-- C10: with dimension 0 no position is ever a candidate (rank * 0 is
never greater than a non-negative usage count), so the first remove_min
touching a Key (stored dimension still the default 0) widens the
dimension at least once: after the pop the stored dimension for that Key
is at least 1. -/
theorem C10_first_touch_dimension {E : Type} (cfg : Config)
    (rng : Nat → Nat) (st st' : FractalState E) (k : Key) (e : E)
    (h : remove_min cfg rng st = some (k, e, st'))
    (h0 : lookupD st.current_dimension k 0 = 0) :
    (∀ records : List Nat, candidate_ranks records 0 = []) ∧
    1 ≤ lookupD st'.current_dimension k 0 := by
  obtain ⟨tbs, rest, rec', hb, hmem, hsz, hrne, her, hcd⟩ :=
    remove_min_spec cfg rng st st' k e h
  refine ⟨candidate_ranks_zero, ?_⟩
  rw [hcd, lookupD_updateMap_self, h0]
  exact widen_dim_zero_pos _ (effective_records_ne_nil _)

/-- C10 witness: the first-touch theorem applied to the concrete pop on
S2 (dimension for Key [0] starts at the default 0 and is stored as 1). -/
theorem C10_witness :
    (∀ records : List Nat, candidate_ranks records 0 = []) ∧
    1 ≤ lookupD S2'.current_dimension [0] 0 :=
  C10_first_touch_dimension ⟨false, QueueType.FIFO⟩ (fun _ => 0) S2 S2' [0] 20
    (by decide) (by decide)

end FD
